import Mathlib

/-!
# Verification of the speech dataset wizard core

Shallow embedding of `speech_dataset_wizard.py`.  Python strings are
modelled as `List Char` (Python 3 strings compare by code point, which is
`Char` order).  Digits are modelled as the ASCII decimal digits, which is
what the regular expression `\d` and `int()` accept on the inputs this
program handles.  Each definition carries a reference to the source lines
it embeds.
-/

/-- Convert a string literal to the `List Char` model. -/
def strL (s : String) : List Char := s.toList

/-- The characters stripped by Python `str.strip()` (ASCII whitespace). -/
def pyWSChar (c : Char) : Bool :=
  c = ' ' || c = '\t' || c = '\n' || c = '\x0d' || c = '\x0b' || c = '\x0c'

/-- Python `str.strip()`: remove leading and trailing whitespace. -/
def pyStrip (s : List Char) : List Char :=
  ((s.dropWhile pyWSChar).reverse.dropWhile pyWSChar).reverse

/-- Python `str.split(sep)` for a one-character separator: split at every
occurrence; always returns at least one (possibly empty) piece. -/
def splitOnChar (sep : Char) : List Char → List (List Char)
  | [] => [[]]
  | c :: rest =>
    if c = sep then
      [] :: splitOnChar sep rest
    else
      match splitOnChar sep rest with
      | [] => [[c]]
      | p :: ps => (c :: p) :: ps

/-- Universal-newline translation performed by reading a file in text mode:
`"\r\n"` and a lone `"\r"` both become `"\n"`. -/
def univNewlines : List Char → List Char
  | [] => []
  | '\x0d' :: '\n' :: rest => '\n' :: univNewlines rest
  | '\x0d' :: rest => '\n' :: univNewlines rest
  | c :: rest => c :: univNewlines rest

/-- Python `file.readlines()` with the trailing newlines already cut off:
the final-newline piece produced by splitting is dropped (a file ending in
`'\n'` has no empty last line).  Since every parsed piece is afterwards
stripped, keeping the `'\n'` terminators would make no difference. -/
def pyReadlines (content : List Char) : List (List Char) :=
  match univNewlines content with
  | [] => []
  | c :: rest =>
    let ps := splitOnChar '\n' (c :: rest)
    if ps.getLast? = some [] then ps.dropLast else ps

/-- `str(PurePosixPath(s))`: split on `'/'`, drop empty and `"."`
components, re-join; keep a root (`"/"`, or exactly `"//"`), and `"."`
for an empty result.  (`".."` components are kept, as `pathlib` does.) -/
def pathNorm (s : List Char) : List Char :=
  let comps := (splitOnChar '/' s).filter (fun c => c ≠ [] ∧ c ≠ ['.'])
  let core := List.intercalate ['/'] comps
  if s.take 1 = ['/'] then
    (if s.take 2 = ['/', '/'] ∧ s.take 3 ≠ ['/', '/', '/'] then ['/', '/'] else ['/']) ++ core
  else if core = [] then ['.'] else core

/-- Python `dict` assignment `m[k] = v` viewed on the ordered item list:
an existing key keeps its position and gets the new value, a new key is
appended at the end. -/
def dictInsert (m : List (List Char × List Char)) (k v : List Char) :
    List (List Char × List Char) :=
  if m.any (fun p => p.1 = k) then
    m.map (fun p => if p.1 = k then (k, v) else p)
  else
    m ++ [(k, v)]

/-- One line of `metadata.csv` as parsed by `on_update_settings`
(`speech_dataset_wizard.py:182`):
`recording_id, transcription = map(str.strip, line.split('|'))`.
The unpacking succeeds only when splitting on `'|'` yields exactly two
pieces; otherwise Python raises `ValueError`, modelled by `none`. -/
def parseLedgerLine (line : List Char) : Option (List Char × List Char) :=
  match splitOnChar '|' line with
  | [a, b] => some (pyStrip a, pyStrip b)
  | _ => none

/-- The ledger-loading loop of `on_update_settings`
(`speech_dataset_wizard.py:180-183`): read the file line by line, parse
each line, and store `transcription_map[str(Path(recording_id))] =
transcription`.  A line whose parse fails aborts the whole load
(`ValueError`), modelled by `none`. -/
def load_transcription_map (content : List Char) :
    Option (List (List Char × List Char)) :=
  (pyReadlines content).foldlM
    (fun m line =>
      (parseLedgerLine line).map (fun p => dictInsert m (pathNorm p.1) p.2))
    []

/-- `create_transcript_csv` (`speech_dataset_wizard.py:347-353`): write
one `"{recording_id}|{transcription}\n"` line per table row. -/
def create_transcript_csv (rows : List (List Char × List Char)) : List Char :=
  (rows.map (fun r => r.1 ++ '|' :: r.2 ++ ['\n'])).flatten

/-- A ledger field that survives the persisted line format and the
parser's `strip` untouched: no `'|'` (the delimiter), no line breaks
(they would change the line structure), and no surrounding whitespace
(it would be stripped on load). -/
def goodLedgerField (f : List Char) : Prop :=
  '|' ∉ f ∧ '\n' ∉ f ∧ '\x0d' ∉ f ∧ pyStrip f = f

instance (f : List Char) : Decidable (goodLedgerField f) :=
  inferInstanceAs (Decidable (_ ∧ _ ∧ _ ∧ _))

/-- One step of splitting a string into maximal runs of digits and
non-digits, consuming characters from the right (`foldr`).  The
accumulator is the run list of the suffix already processed; it always
starts (and ends) with a possibly-empty non-digit piece, exactly like the
output of `re.split(r'(\d+)', text)`. -/
def runStep (c : Char) (acc : List (List Char)) : List (List Char) :=
  if c.isDigit then
    match acc with
    | [] :: d :: rest => [] :: (c :: d) :: rest
    | _ => [] :: [c] :: acc
  else
    match acc with
    | t :: rest => (c :: t) :: rest
    | [] => [[c]]

/-- `re.split(r'(\d+)', text)`: the alternating list
`[nondigit, digits, nondigit, …, nondigit]` of pieces (first and last
pieces possibly empty, digit pieces never empty). -/
def runsSplit (s : List Char) : List (List Char) := s.foldr runStep [[]]

/-- `int()` of a run of decimal digits. -/
def digitsToNat (d : List Char) : Nat :=
  d.foldl (fun n c => 10 * n + (c.toNat - '0'.toNat)) 0

/-- Convert the alternating piece list into Python's key list: pieces at
even positions stay strings, pieces at odd positions (the captured digit
runs) become integers.  The `flag` tells whether the next piece is at an
odd (digit) position. -/
def toKeyListFrom : Bool → List (List Char) → List (List Char ⊕ Nat)
  | _, [] => []
  | false, t :: rest => Sum.inl t :: toKeyListFrom true rest
  | true, d :: rest => Sum.inr (digitsToNat d) :: toKeyListFrom false rest

/-- `natural_keys` (`speech_dataset_wizard.py:21-26`):
`[(int(c) if c.isdigit() else c) for c in re.split(r'(\d+)', text)]`. -/
def natural_keys (s : List Char) : List (List Char ⊕ Nat) :=
  toKeyListFrom false (runsSplit s)

/-- Python string `<`: lexicographic by code point, a proper prefix is
smaller. -/
def pyStrLt : List Char → List Char → Bool
  | [], [] => false
  | [], _ :: _ => true
  | _ :: _, [] => false
  | a :: as, b :: bs => a < b || (a = b && pyStrLt as bs)

/-- Python `<` on one key element.  An `int` and a `str` are never
compared by `sorted` here because key lists agree in type at every
position (strings at even, ints at odd positions); the mixed cases (a
`TypeError` in Python) are unreachable and modelled as `false`. -/
def pyElemLt : List Char ⊕ Nat → List Char ⊕ Nat → Bool
  | .inl a, .inl b => pyStrLt a b
  | .inr m, .inr n => decide (m < n)
  | .inl _, .inr _ => false
  | .inr _, .inl _ => false

/-- Python list `<` on key lists: find the first position where the
elements differ (`==`) and compare there; a proper prefix is smaller. -/
def pyKeyLt : List (List Char ⊕ Nat) → List (List Char ⊕ Nat) → Bool
  | [], [] => false
  | [], _ :: _ => true
  | _ :: _, [] => false
  | a :: as, b :: bs => pyElemLt a b || (a = b && pyKeyLt as bs)

/-- The strict order used by `sorted(…, key=natural_keys)`
(`speech_dataset_wizard.py:185`). -/
def natKeyLt (a b : List Char) : Prop :=
  pyKeyLt (natural_keys a) (natural_keys b) = true

instance : DecidableRel natKeyLt := fun _ _ =>
  inferInstanceAs (Decidable (_ = true))

/-- `sorted(files, key=natural_keys)`: Python's sort is stable, so its
output is the unique stable `natKeyLt`-ascending rearrangement; it is
modelled by the stable `List.insertionSort` with the strict key order
(an element is inserted after all elements it is not strictly below). -/
def pySortedByNatKeys (files : List (List Char)) : List (List Char) :=
  List.insertionSort natKeyLt files

/-- Spec-side comparator, following §4.1/§8 of the spec: compare the
alternating run sequences lexicographically, digit runs as integers and
non-digit runs as strings.  `isNum` tells whether the next run is a digit
run. -/
def specRunsLt : Bool → List (List Char) → List (List Char) → Bool
  | _, [], [] => false
  | _, [], _ :: _ => true
  | _, _ :: _, [] => false
  | false, a :: as, b :: bs => pyStrLt a b || (a = b && specRunsLt true as bs)
  | true, a :: as, b :: bs =>
    decide (digitsToNat a < digitsToNat b) ||
      (digitsToNat a = digitsToNat b && specRunsLt false as bs)

/-- The alternation shape of a run list: starting in state `false` the
next piece is digit-free, in state `true` it is a non-empty all-digit
run, and a digit run is never last. -/
def AltRuns : Bool → List (List Char) → Prop
  | false, [] => False
  | false, t :: rest => (∀ c ∈ t, c.isDigit = false) ∧ (rest = [] ∨ AltRuns true rest)
  | true, [] => False
  | true, d :: rest => d ≠ [] ∧ (∀ c ∈ d, c.isDigit = true) ∧ AltRuns false rest

/-- The bootstrap-reconciliation body of `on_update_settings`
(`speech_dataset_wizard.py:185-190`), for a dataset root `root` whose
`wavs/` directory contains the files `wavNames` and a parsed
transcription map `tmap`:
`glob` returns the full paths `root ++ "/wavs/" ++ name`; they are sorted
with `key=natural_keys`; each file's recording id is its path relative to
the dataset root (here: the path with the `root ++ "/"` prefix dropped);
ids missing from the map are skipped (`continue`), present ones are
appended as `(recording_id, transcription_map[recording_id])`. -/
def bootstrap_items (root : List Char) (wavNames : List (List Char))
    (tmap : List (List Char × List Char)) : List (List Char × List Char) :=
  let files := pySortedByNatKeys (wavNames.map (fun f => root ++ strL "/wavs/" ++ f))
  files.filterMap (fun file =>
    let rid := file.drop (root.length + 1)
    (List.lookup rid tmap).map (fun tr => (rid, tr)))

/-- The spec's description of the reconciliation (§4.1 steps 2-3): sort
the *filenames* by the natural-order comparator, keep exactly those whose
recording id `("wavs/" ++ name)` is present in the mapping, paired with
the mapped transcription, in file-sorted order. -/
def spec_bootstrap_items (wavNames : List (List Char))
    (tmap : List (List Char × List Char)) : List (List Char × List Char) :=
  (pySortedByNatKeys wavNames).filterMap (fun f =>
    (List.lookup (strL "wavs/" ++ f) tmap).map (fun tr => (strL "wavs/" ++ f, tr)))

/-- Is the dBFS level of a window strictly below the silence threshold?
An audio segment is modelled as its list of millisecond frames, each
carrying the sum of squared samples of that millisecond (the sample rate
is fixed, so every millisecond has the same number of samples).  The RMS
of a window is `sqrt (sum / (length * samplesPerMs))`, and since `sqrt`
and `log10` are strictly monotone, `dBFS < threshold` is equivalent to
the integer comparison `sum < length * Q` where
`Q = samplesPerMs * (maxAmplitude * 10^(threshold/20))²`.  An empty
window has RMS `0`, i.e. dBFS `-inf`, which is below any threshold. -/
def windowSilent (Q : Nat) (w : List Nat) : Bool :=
  w.isEmpty || decide (w.sum < w.length * Q)

/-- Python slice `sound[i:j]` for non-negative `i`, `j` (clamped). -/
def pySliceNat (a : List Nat) (i j : Nat) : List Nat := (a.drop i).take (j - i)

/-- Python slice `sound[i:j]` where the stop index is an `int` that may
be negative (a negative stop counts from the end). -/
def pySliceStop (a : List Nat) (i : Nat) (j : Int) : List Nat :=
  let stop : Nat := if j < 0 then (a.length + j).toNat else min j.toNat a.length
  (a.take stop).drop i

/-- The while loop of `detect_leading_silence`
(`speech_dataset_wizard.py:31-32`):
`while sound[t:t+chunk].dBFS < threshold and t < len(sound): t += chunk`.
The loop terminates because the guard requires `t < len(sound)` and `t`
grows by `chunk ≥ 1` each iteration, so it runs at most `len(sound)`
times; the recursion is paid for with a fuel counter that the caller
starts at `len(sound) + 1`, which the guard can never exhaust (see
`dlsGo_fuel_irrel`: any two sufficient fuels give the same result, so the
function is a faithful rendering of the unbounded `while`). -/
def dlsGo (Q chunk : Nat) (sound : List Nat) : Nat → Nat → Nat
  | 0, t => t
  | fuel + 1, t =>
    if windowSilent Q (pySliceNat sound t (t + chunk)) = true ∧ t < sound.length
    then dlsGo Q chunk sound fuel (t + chunk)
    else t

/-- `detect_leading_silence` (`speech_dataset_wizard.py:28-34`) with the
threshold abstracted into `Q` (see `windowSilent`).  The
`assert chunk_size > 0` is modelled by returning `none`
(`AssertionError`) for a non-positive chunk size. -/
def detect_leading_silence (sound : List Nat) (Q chunk : Nat) : Option Nat :=
  if 0 < chunk then some (dlsGo Q chunk sound (sound.length + 1) 0) else none

/-- `detect_leading_silence` at the default arguments used by
`trim_silence` (`chunk_size=10`). -/
def dls10 (Q : Nat) (sound : List Nat) : Nat :=
  dlsGo Q 10 sound (sound.length + 1) 0

/-- The per-file trimming step of `MainWindow.trim_silence`
(`speech_dataset_wizard.py:433-436`):
`start = detect_leading_silence(sound)`,
`end = detect_leading_silence(sound.reverse())`,
`trimmed = sound[start : len(sound) - end]` (the stop index is a Python
`int` and may be negative). -/
def trimOnce (Q : Nat) (sound : List Nat) : List Nat :=
  pySliceStop sound (dls10 Q sound) ((sound.length : Int) - dls10 Q sound.reverse)

/-- Phase 1 of `MainWindow.trim_silence`
(`speech_dataset_wizard.py:423-437`): walk the ledger rows in order; at
the START of each row's iteration poll `progress.wasCanceled()`; if it
reports a cancellation, return from the handler at once (`none`: nothing
is written); otherwise compute the row's trimmed audio in memory and
continue.  `cancelSlot` is the moment the cancellation request arrives,
measured in poll slots: the poll before row `i` observes it exactly when
`cancelSlot ≤ i` (so `cancelSlot = rows.length` means the request arrives
only after the last poll, and `cancelSlot > rows.length` means it never
arrives). -/
def trimPhase1 (Q cancelSlot : Nat) : Nat → List (List Char × List Nat) →
    Option (List (List Char × List Nat))
  | _, [] => some []
  | i, (fp, sound) :: rest =>
    if cancelSlot ≤ i then none
    else (trimPhase1 Q cancelSlot (i + 1) rest).map
      (fun ys => (fp, trimOnce Q sound) :: ys)

/-- `MainWindow.trim_silence` (`speech_dataset_wizard.py:416-444`) viewed
through the writes it performs: phase 1 accumulates `(path, trimmed)`
pairs in memory (an observed cancellation returns with nothing written);
phase 2 then exports every accumulated pair over its original file, with
no further cancellation poll.  The result is the ordered list of file
writes performed on disk. -/
def trim_silence_writes (Q : Nat) (rows : List (List Char × List Nat))
    (cancelSlot : Nat) : List (List Char × List Nat) :=
  match trimPhase1 Q cancelSlot 0 rows with
  | none => []
  | some ys => ys

/-- Python `s.replace(old, new)` for non-empty `old`: scan left to right,
replacing every (non-overlapping) occurrence.  Every step consumes at
least one character of `s` (a match consumes `old.length ≥ 1` of them),
so fuel `s.length` is never exhausted; the fuel only pays for the
recursion (see `replGo_fuel_le`). -/
def replGo (old new : List Char) : Nat → List Char → List Char
  | 0, s => s
  | _ + 1, [] => []
  | fuel + 1, c :: rest =>
    if old.isPrefixOf (c :: rest) then
      new ++ replGo old new fuel ((c :: rest).drop old.length)
    else
      c :: replGo old new fuel rest

/-- Python `s.replace(old, new)`.  (`old = ""` would interleave `new`
between every character; the program only ever replaces non-empty
substrings, so that case is modelled as the identity.) -/
def pyReplace (old new s : List Char) : List Char :=
  if old = [] then s else replGo old new s.length s

/-- The decimal digit character for `n < 10`. -/
def digitChar10 (n : Nat) : Char := Char.ofNat ('0'.toNat + n)

/-- Python `str(n)` for a natural number: base-10 digits, most
significant first.  Dividing by 10 reaches a one-digit number in far
fewer than `n` steps, so fuel `n + 1` is never exhausted. -/
def natToCharsGo : Nat → Nat → List Char
  | 0, _ => []
  | fuel + 1, n =>
    if n < 10 then [digitChar10 n]
    else natToCharsGo fuel (n / 10) ++ [digitChar10 (n % 10)]

/-- Python `str(n)` for a natural number. -/
def natToChars (n : Nat) : List Char := natToCharsGo (n + 1) n

/-- The recording-id computation of `on_record_clicked`
(`speech_dataset_wizard.py:322-334`): the destination file is
`wavs/{dataset_name}{new_row_index + 1}.wav`; `wavspathout` is its path
relative to the dataset root, and
`ljspeechout = wavspathout.replace(".wav", "").replace("wavs/", "")`
(every occurrence is replaced, not only the trailing extension and the
leading directory). -/
def recordingIdOf (datasetName : List Char) (newRowIndex : Nat) : List Char :=
  let wavspathout := strL "wavs/" ++ datasetName ++ natToChars (newRowIndex + 1) ++ strL ".wav"
  pyReplace (strL "wavs/") [] (pyReplace (strL ".wav") [] wavspathout)

/-- The capture device: `audio_stream.read(1024)` blocks until a full
buffer of 1024 frames is available, so the `n`-th read returns the
device's `n`-th chunk. -/
structure RecDevice where
  chunkAt : Nat → List Int

/-- The recording state owned by the widget while `is_recording`
(`speech_dataset_wizard.py:305-309`): the list of captured chunks and
how many reads have been issued. -/
structure RecSession where
  is_recording : Bool
  frames : List (List Int)
  reads : Nat

/-- The `is_recording = True` branch of `on_record_clicked`
(`speech_dataset_wizard.py:306-309`): clear the frame buffer, open the
stream, start the timer. -/
def startRecording : RecSession :=
  { is_recording := true, frames := [], reads := 0 }

/-- One stream read appended to the frame buffer
(`speech_dataset_wizard.py:360-361`). -/
def tickRead (dev : RecDevice) (s : RecSession) : RecSession :=
  { s with frames := s.frames ++ [dev.chunkAt s.reads], reads := s.reads + 1 }

/-- `on_audio_record_timer_tick` (`speech_dataset_wizard.py:355-361`):
without `force`, a tick while not recording only stops the timer;
otherwise one buffer is read and appended. -/
def on_audio_record_timer_tick (dev : RecDevice) (force : Bool)
    (s : RecSession) : RecSession :=
  if ¬force ∧ ¬s.is_recording then s else tickRead dev s

/-- The WAV file written by the `wave` module
(`speech_dataset_wizard.py:324-329`): mono (`nchannels = 1`), 16-bit
(`sampwidth = 2`), 22050 Hz; `writeframes(b''.join(frames))` stores the
concatenated samples, and the frame count is the sample count (one
channel). -/
structure WavFile where
  nchannels : Nat
  sampwidth : Nat
  framerate : Nat
  samples : List Int

/-- The stop branch of `on_record_clicked`
(`speech_dataset_wizard.py:310-334`): one final forced tick flushes a
last buffer, the stream is closed, the WAV file is written from the
concatenated frames, and a new table row
`(recording_id, transcription)` is appended.  Returns the written file,
the new ledger entry and the final session state. -/
def stopRecording (dev : RecDevice) (datasetName transcription : List Char)
    (newRowIndex : Nat) (s : RecSession) :
    WavFile × (List Char × List Char) × RecSession :=
  let s1 := on_audio_record_timer_tick dev true s
  let s2 := { s1 with is_recording := false }
  let wav : WavFile :=
    { nchannels := 1, sampwidth := 2, framerate := 22050,
      samples := s1.frames.flatten }
  (wav, (recordingIdOf datasetName newRowIndex, transcription), s2)

/-- The number of audio frames of the written WAV file: `wave` computes
`nframes = len(data) / (nchannels * sampwidth)`, i.e. one frame per
mono 16-bit sample. -/
def wavNFrames (w : WavFile) : Nat := w.samples.length

/-! ## Faithfulness of the fuel counters -/

/-- Any two fuels above the loop's remaining iteration count give the
same result, so `dlsGo` with fuel `len + 1` is the value of the
unbounded `while` loop. -/
theorem dlsGo_fuel_irrel (Q chunk : Nat) (hc : 0 < chunk) (sound : List Nat) :
    ∀ fuel₁ fuel₂ t, sound.length - t < fuel₁ → sound.length - t < fuel₂ →
      dlsGo Q chunk sound fuel₁ t = dlsGo Q chunk sound fuel₂ t := by
  intro fuel₁
  induction fuel₁ with
  | zero => intro fuel₂ t h1 _; omega
  | succ f ih =>
    intro fuel₂ t h1 h2
    match fuel₂ with
    | 0 => omega
    | f₂ + 1 =>
      simp only [dlsGo]
      by_cases hg : windowSilent Q (pySliceNat sound t (t + chunk)) = true ∧ t < sound.length
      · simp only [if_pos hg]
        exact ih f₂ (t + chunk) (by omega) (by omega)
      · simp only [if_neg hg]

/-- `replGo` consumes at least one character of its input per step: with
fuel at least the input length the fuel never runs out, so `pyReplace`
is the full left-to-right replacement scan. -/
theorem replGo_fuel_le (old new : List Char) (hold : old ≠ []) :
    ∀ fuel₁ fuel₂ s, s.length ≤ fuel₁ → s.length ≤ fuel₂ →
      replGo old new fuel₁ s = replGo old new fuel₂ s := by
  intro fuel₁
  induction fuel₁ with
  | zero =>
    intro fuel₂ s h1 _
    have : s = [] := List.eq_nil_of_length_eq_zero (by omega)
    subst this
    cases fuel₂ <;> rfl
  | succ f ih =>
    intro fuel₂ s h1 h2
    match s, fuel₂ with
    | [], 0 => rfl
    | [], f₂ + 1 => rfl
    | c :: rest, 0 => simp at h2
    | c :: rest, f₂ + 1 =>
      simp only [replGo]
      by_cases hp : old.isPrefixOf (c :: rest)
      · have hlen : 0 < old.length := List.length_pos.mpr hold
        have hle : old.length ≤ (c :: rest).length :=
          (List.isPrefixOf_iff_prefix.mp hp).length_le
        simp only [if_pos hp]
        have := ih f₂ ((c :: rest).drop old.length)
          (by simp only [List.length_drop]; simp at h1 hle ⊢; omega)
          (by simp only [List.length_drop]; simp at h2 hle ⊢; omega)
        rw [this]
      · simp only [if_neg hp, List.length_cons] at h1 h2 ⊢
        rw [ih f₂ rest (by omega) (by omega)]

/-! ## The silence-detection loop -/

/-- The loop offset only ever advances by whole chunks. -/
theorem dlsGo_dvd (Q chunk : Nat) (sound : List Nat) :
    ∀ fuel t, chunk ∣ t → chunk ∣ dlsGo Q chunk sound fuel t := by
  intro fuel
  induction fuel with
  | zero => intro t ht; simpa [dlsGo] using ht
  | succ f ih =>
    intro t ht
    simp only [dlsGo]
    by_cases hg : windowSilent Q (pySliceNat sound t (t + chunk)) = true ∧ t < sound.length
    · simp only [if_pos hg]; exact ih (t + chunk) (Dvd.dvd.add ht dvd_rfl)
    · simp only [if_neg hg]; exact ht

/-- On an everywhere-silent buffer the loop runs until the offset passes
the end: the result lies in `[len, len + chunk)`. -/
theorem dlsGo_silent_bounds (Q chunk : Nat) (hc : 0 < chunk) (sound : List Nat)
    (hsil : ∀ t, t < sound.length →
      windowSilent Q (pySliceNat sound t (t + chunk)) = true) :
    ∀ fuel t, sound.length - t < fuel → t < sound.length + chunk →
      sound.length ≤ dlsGo Q chunk sound fuel t ∧
        dlsGo Q chunk sound fuel t < sound.length + chunk := by
  intro fuel
  induction fuel with
  | zero => intro t h1 _; omega
  | succ f ih =>
    intro t h1 h2
    simp only [dlsGo]
    by_cases ht : t < sound.length
    · have hg : windowSilent Q (pySliceNat sound t (t + chunk)) = true ∧
          t < sound.length := ⟨hsil t ht, ht⟩
      simp only [if_pos hg]
      exact ih (t + chunk) (by omega) (by omega)
    · have hg : ¬(windowSilent Q (pySliceNat sound t (t + chunk)) = true ∧
          t < sound.length) := fun h => ht h.2
      simp only [if_neg hg]
      omega

/-- Claim C10: for every buffer and every chunk size strictly greater
than zero, `detect_leading_silence` terminates and returns a
(non-negative) integer multiple of the chunk size; the guarding
assertion rejects a chunk size of zero. -/
theorem C10_detect_terminates_multiple (sound : List Nat) (Q chunk : Nat) :
    (0 < chunk → ∃ k, detect_leading_silence sound Q chunk = some (chunk * k)) ∧
      detect_leading_silence sound Q 0 = none := by
  constructor
  · intro hc
    have hd := dlsGo_dvd Q chunk sound (sound.length + 1) 0 (dvd_zero chunk)
    obtain ⟨k, hk⟩ := hd
    exact ⟨k, by simp [detect_leading_silence, hc, hk]⟩
  · simp [detect_leading_silence]

/-- Witness for C10 at a concrete input. -/
theorem C10_witness :
    (0 : Nat) < 2 ∧ ∃ k, detect_leading_silence [0, 0, 0] 1 2 = some (2 * k) :=
  ⟨by decide, (C10_detect_terminates_multiple [0, 0, 0] 1 2).1 (by decide)⟩

/-- Claim C7 as stated is false: on the all-silent 3 ms buffer with
chunk size 2, every window is below threshold, yet the scan returns 4,
which is neither `L = 3` nor the largest multiple of 2 below it
(`2`) — the loop overshoots to the smallest multiple of the chunk size
at or above the length. -/
theorem C7_counterexample :
    (∀ t, t < ([0, 0, 0] : List Nat).length →
      windowSilent 1 (pySliceNat [0, 0, 0] t (t + 2)) = true) ∧
      detect_leading_silence [0, 0, 0] 1 2 = some 4 ∧ (4 : Nat) ≠ 3 ∧ (4 : Nat) ≠ 2 := by
  refine ⟨?_, by decide, by decide, by decide⟩
  decide

/-- Claim C7, amended: on an all-silent buffer of length L the scan
returns the unique multiple `m` of the chunk size with
`L ≤ m < L + chunk` — the smallest multiple of `chunk_ms` at or above
`L` (equal to `L` exactly when `L` is a multiple), never the largest
multiple below `L`. -/
theorem C7_amended_silent_scan (sound : List Nat) (Q chunk : Nat)
    (hc : 0 < chunk)
    (hsil : ∀ t, t < sound.length →
      windowSilent Q (pySliceNat sound t (t + chunk)) = true) :
    ∃ m, detect_leading_silence sound Q chunk = some m ∧ chunk ∣ m ∧
      sound.length ≤ m ∧ m < sound.length + chunk := by
  have hb := dlsGo_silent_bounds Q chunk hc sound hsil (sound.length + 1) 0
    (by omega) (by omega)
  have hd := dlsGo_dvd Q chunk sound (sound.length + 1) 0 (dvd_zero chunk)
  exact ⟨dlsGo Q chunk sound (sound.length + 1) 0,
    by simp [detect_leading_silence, hc], hd, hb.1, hb.2⟩

/-- Witness for the amended C7 at a concrete input. -/
theorem C7_witness :
    ∃ m, detect_leading_silence [0, 0, 0, 0, 0] 3 4 = some m ∧ 4 ∣ m ∧
      ([0, 0, 0, 0, 0] : List Nat).length ≤ m ∧
      m < ([0, 0, 0, 0, 0] : List Nat).length + 4 :=
  C7_amended_silent_scan [0, 0, 0, 0, 0] 3 4 (by decide) (by decide)

/-! ## Trimming -/

/-- If the very first chunk window is at or above the threshold, the
silence scan stops immediately. -/
theorem dls10_of_loud_head (Q : Nat) (sound : List Nat)
    (h : windowSilent Q (pySliceNat sound 0 10) = false) :
    dls10 Q sound = 0 := by
  unfold dls10
  simp only [dlsGo, Nat.zero_add, h]
  simp

/-- An audio buffer whose first and last chunk windows are at or above
the threshold is left unchanged by `trim`. -/
theorem trimOnce_of_trimmed (Q : Nat) (sound : List Nat)
    (h1 : windowSilent Q (pySliceNat sound 0 10) = false)
    (h2 : windowSilent Q (pySliceNat sound.reverse 0 10) = false) :
    trimOnce Q sound = sound := by
  unfold trimOnce
  rw [dls10_of_loud_head Q sound h1, dls10_of_loud_head Q sound.reverse h2]
  unfold pySliceStop
  have hnneg : ¬((sound.length : Int) < 0) := by simp
  simp [hnneg]

/-- Claim C8: for every non-silent audio buffer that is already trimmed
(its first and its last chunk window are at or above the silence
threshold), applying `trim` twice yields the same result as applying it
once. -/
theorem C8_trim_idempotent (Q : Nat) (sound : List Nat)
    (h1 : windowSilent Q (pySliceNat sound 0 10) = false)
    (h2 : windowSilent Q (pySliceNat sound.reverse 0 10) = false) :
    trimOnce Q (trimOnce Q sound) = trimOnce Q sound := by
  rw [trimOnce_of_trimmed Q sound h1 h2, trimOnce_of_trimmed Q sound h1 h2]

/-- Witness for C8 at a concrete input: a 12 ms buffer that is loud at
both ends. -/
theorem C8_witness :
    trimOnce 1 (trimOnce 1 [9, 9, 9, 9, 9, 9, 9, 9, 9, 9, 9, 9]) =
      trimOnce 1 [9, 9, 9, 9, 9, 9, 9, 9, 9, 9, 9, 9] :=
  C8_trim_idempotent 1 [9, 9, 9, 9, 9, 9, 9, 9, 9, 9, 9, 9] (by decide) (by decide)

/-! ## The two-phase batch -/

/-- Phase 1 returns early (and nothing is ever written) exactly when the
cancellation request is visible to one of its per-entry polls, i.e. when
it arrives before the poll preceding the last entry's computation. -/
theorem trimPhase1_none_iff (Q cancelSlot : Nat) :
    ∀ (rows : List (List Char × List Nat)) (i : Nat),
      trimPhase1 Q cancelSlot i rows = none ↔
        (rows ≠ [] ∧ cancelSlot < i + rows.length) := by
  intro rows
  induction rows with
  | nil => intro i; simp [trimPhase1]
  | cons r rest ih =>
    intro i
    obtain ⟨fp, sound⟩ := r
    simp only [trimPhase1]
    by_cases hc : cancelSlot ≤ i
    · simp [if_pos hc]
      omega
    · rcases hrest : trimPhase1 Q cancelSlot (i + 1) rest with _ | ys
      · have h1 : cancelSlot < i + 1 + rest.length := ((ih (i + 1)).mp hrest).2
        simp [if_neg hc, hrest]
        omega
      · have h2 : ¬(rest ≠ [] ∧ cancelSlot < i + 1 + rest.length) := by
          intro h
          rw [(ih (i + 1)).mpr h] at hrest
          exact Option.noConfusion hrest
        simp [if_neg hc, hrest]
        rcases rest with _ | ⟨r2, rest2⟩
        · simp only [List.length_nil]
          omega
        · simp only [ne_eq, reduceCtorEq, not_false_eq_true, true_and,
            List.length_cons, not_lt] at h2
          simp only [List.length_cons]
          omega

/-- Claim C3 as stated is false: with a single-entry ledger, a
cancellation signaled after phase 1 has computed the trim for all
`M = 1` entries but before phase 2 begins (`cancelSlot = 1`, so no
per-entry poll — all of which precede the computation they guard —
observes it) does not prevent the writes: the file is overwritten. -/
theorem C3_counterexample :
    trim_silence_writes 1 [(strL "a.wav", [0, 0, 0])] 1 =
        [(strL "a.wav", [])] ∧
      [(strL "a.wav", ([] : List Nat))] ≠ [] ∧
      (1 : Nat) = [(strL "a.wav", [0, 0, 0])].length := by
  refine ⟨by decide, by decide, by decide⟩

/-- Claim C3, amended: cancellation is only polled at the start of each
phase-1 iteration, so if the request arrives before the poll that
precedes the last entry's computation (`cancelSlot < M`), the batch
performs zero writes and every file is unchanged.  (A request arriving
after the last poll but before phase 2 is never observed: phase 2 then
writes every file, as the counterexample shows.) -/
theorem C3_amended_cancel_before_last_poll (Q : Nat)
    (rows : List (List Char × List Nat)) (cancelSlot : Nat)
    (h : cancelSlot < rows.length) :
    trim_silence_writes Q rows cancelSlot = [] := by
  have hne : rows ≠ [] := by
    intro h0
    rw [h0] at h
    simp at h
  have := (trimPhase1_none_iff Q cancelSlot rows 0).mpr ⟨hne, by omega⟩
  simp [trim_silence_writes, this]

/-- Witness for the amended C3 at a concrete input. -/
theorem C3_witness :
    (0 : Nat) < [(strL "b.wav", [0, 0, 5])].length ∧
      trim_silence_writes 1 [(strL "b.wav", [0, 0, 5])] 0 = [] :=
  ⟨by decide, C3_amended_cancel_before_last_poll 1 [(strL "b.wav", [0, 0, 5])] 0 (by decide)⟩

/-! ## The ledger file format -/

theorem splitOnChar_ne_nil (sep : Char) (s : List Char) :
    splitOnChar sep s ≠ [] := by
  induction s with
  | nil => simp [splitOnChar]
  | cons c rest ih =>
    simp only [splitOnChar]
    by_cases hc : c = sep
    · simp [if_pos hc]
    · simp only [if_neg hc]
      rcases h : splitOnChar sep rest with _ | ⟨p, ps⟩
      · exact absurd h ih
      · simp

/-- A separator-free string splits into a single piece. -/
theorem splitOnChar_nosep (sep : Char) (s : List Char) (h : sep ∉ s) :
    splitOnChar sep s = [s] := by
  induction s with
  | nil => rfl
  | cons c rest ih =>
    simp only [List.mem_cons, not_or] at h
    have hcs : ¬(c = sep) := fun hh => h.1 hh.symm
    simp only [splitOnChar, if_neg hcs, ih h.2]

/-- Splitting cuts at the first separator. -/
theorem splitOnChar_append_cons (sep : Char) (a b : List Char) (h : sep ∉ a) :
    splitOnChar sep (a ++ sep :: b) = a :: splitOnChar sep b := by
  induction a with
  | nil => simp [splitOnChar]
  | cons c a' ih =>
    simp only [List.mem_cons, not_or] at h
    have hcs : ¬(c = sep) := fun hh => h.1 hh.symm
    simp only [List.cons_append, splitOnChar, if_neg hcs, List.append_eq, ih h.2]

/-- `univNewlines` leaves a character other than a carriage return in
place. -/
theorem univNewlines_cons_ne (c : Char) (rest : List Char) (hc : c ≠ '\x0d') :
    univNewlines (c :: rest) = c :: univNewlines rest := by
  rw [univNewlines.eq_def]
  split
  · simp_all
  · simp_all
  · simp_all
  · rename_i heq
    injection heq with h1 h2
    subst h1
    subst h2
    rfl

/-- Contents without a carriage return are unchanged by the
universal-newline translation. -/
theorem univNewlines_id (s : List Char) (h : '\x0d' ∉ s) :
    univNewlines s = s := by
  induction s with
  | nil => rfl
  | cons c rest ih =>
    simp only [List.mem_cons, not_or] at h
    rw [univNewlines_cons_ne c rest (fun hh => h.1 hh.symm), ih h.2]

/-- Splitting the persisted CSV text on `'\n'` recovers the payload
lines (plus the empty piece after the final newline). -/
theorem csv_flatten_split (rows : List (List Char × List Char))
    (hclean : ∀ p ∈ rows, '\n' ∉ p.1 ∧ '\n' ∉ p.2) :
    splitOnChar '\n' (create_transcript_csv rows) =
      rows.map (fun r => r.1 ++ '|' :: r.2) ++ [[]] := by
  induction rows with
  | nil => rfl
  | cons r rest ih =>
    obtain ⟨i, t⟩ := r
    have hc := hclean (i, t) (by simp)
    have hA : '\n' ∉ i ++ '|' :: t := by
      intro hmem
      rcases List.mem_append.mp hmem with h1 | h2
      · exact hc.1 h1
      · rcases List.mem_cons.mp h2 with h3 | h4
        · exact absurd h3 (by decide)
        · exact hc.2 h4
    have hshape : create_transcript_csv ((i, t) :: rest) =
        (i ++ '|' :: t) ++ '\n' :: create_transcript_csv rest := by
      simp [create_transcript_csv]
    rw [hshape, splitOnChar_append_cons '\n' _ _ hA,
      ih (fun p hp => hclean p (List.mem_cons_of_mem _ hp))]
    simp

/-- `pyReadlines` on carriage-return-free, non-empty content. -/
theorem pyReadlines_eq (content : List Char) (hne : content ≠ [])
    (hr : '\x0d' ∉ content) :
    pyReadlines content =
      (if (splitOnChar '\n' content).getLast? = some [] then
        (splitOnChar '\n' content).dropLast
      else splitOnChar '\n' content) := by
  unfold pyReadlines
  rw [univNewlines_id _ hr]
  rcases content with _ | ⟨c, cs⟩
  · exact absurd rfl hne
  · rfl

/-- Reading the persisted CSV back yields exactly the payload lines, in
order. -/
theorem pyReadlines_csv (rows : List (List Char × List Char))
    (hclean : ∀ p ∈ rows, ('\n' ∉ p.1 ∧ '\x0d' ∉ p.1) ∧ ('\n' ∉ p.2 ∧ '\x0d' ∉ p.2)) :
    pyReadlines (create_transcript_csv rows) =
      rows.map (fun r => r.1 ++ '|' :: r.2) := by
  have hsplit := csv_flatten_split rows
    (fun p hp => ⟨(hclean p hp).1.1, (hclean p hp).2.1⟩)
  have hnr : '\x0d' ∉ create_transcript_csv rows := by
    intro hmem
    simp only [create_transcript_csv, List.mem_flatten, List.mem_map] at hmem
    obtain ⟨line, ⟨p, hp, rfl⟩, hmem⟩ := hmem
    simp only [List.mem_append, List.mem_cons, List.mem_singleton,
      List.not_mem_nil, or_false] at hmem
    rcases hmem with (h1 | h2 | h3) | h4
    · exact (hclean p hp).1.2 h1
    · exact absurd h2 (by decide)
    · exact (hclean p hp).2.2 h3
    · exact absurd h4 (by decide)
  rcases rows with _ | ⟨r1, rest⟩
  · rfl
  · have hne : create_transcript_csv (r1 :: rest) ≠ [] := by
      simp [create_transcript_csv]
    rw [pyReadlines_eq _ hne hnr, hsplit]
    rw [List.getLast?_concat, if_pos rfl, List.dropLast_concat]

/-- A well-formed persisted line parses back to its two fields. -/
theorem parseLedgerLine_good (i t : List Char)
    (hi : goodLedgerField i) (ht : goodLedgerField t) :
    parseLedgerLine (i ++ '|' :: t) = some (i, t) := by
  unfold parseLedgerLine
  rw [splitOnChar_append_cons '|' i t hi.1, splitOnChar_nosep '|' t ht.1]
  simp [hi.2.2.2, ht.2.2.2]

/-- Inserting a fresh key into the dictionary appends it. -/
theorem dictInsert_fresh (m : List (List Char × List Char)) (k v : List Char)
    (h : ∀ p ∈ m, p.1 ≠ k) :
    dictInsert m k v = m ++ [(k, v)] := by
  unfold dictInsert
  rw [if_neg]
  simp only [List.any_eq_true, decide_eq_true_eq, not_exists]
  intro p
  intro ⟨hp, hk⟩
  exact h p hp hk

/-- Folding the well-formed persisted lines into the dictionary appends
each entry in order. -/
theorem load_fold_appends :
    ∀ (entries acc : List (List Char × List Char)),
      (∀ p ∈ entries, goodLedgerField p.1 ∧ goodLedgerField p.2 ∧ pathNorm p.1 = p.1) →
      (∀ p ∈ entries, ∀ q ∈ acc, q.1 ≠ p.1) →
      (entries.map Prod.fst).Nodup →
      List.foldlM
        (fun m line => (parseLedgerLine line).map (fun p => dictInsert m (pathNorm p.1) p.2))
        acc (entries.map (fun r => r.1 ++ '|' :: r.2)) = some (acc ++ entries) := by
  intro entries
  induction entries with
  | nil => intro acc _ _ _; simp
  | cons e rest ih =>
    intro acc hgood hdisj hnd
    obtain ⟨i, t⟩ := e
    have he := hgood (i, t) (by simp)
    simp only [List.map_cons, List.foldlM_cons]
    rw [parseLedgerLine_good i t he.1 he.2.1]
    simp only [Option.map_some']
    rw [show pathNorm (i, t).1 = i from he.2.2]
    rw [dictInsert_fresh acc i t (fun q hq => hdisj (i, t) (by simp) q hq)]
    simp only [Option.bind_eq_bind, Option.some_bind]
    have hnd' : (rest.map Prod.fst).Nodup := (List.nodup_cons.mp hnd).2
    have hi_not : i ∉ rest.map Prod.fst := by
      have := (List.nodup_cons.mp hnd).1
      simpa using this
    rw [ih (acc ++ [(i, t)])
      (fun p hp => hgood p (List.mem_cons_of_mem _ hp))
      (fun p hp q hq => by
        rcases List.mem_append.mp hq with h1 | h2
        · exact hdisj p (List.mem_cons_of_mem _ hp) q h1
        · rcases List.mem_singleton.mp h2 with rfl
          intro hqp
          exact hi_not (by
            rw [List.mem_map]
            exact ⟨p, hp, hqp.symm⟩))
      hnd']
    simp

/-- Claim C1 as stated is false: the entry `("a", "b|c")` is well-formed
in the claim's sense (its recording id contains no `'|'`), but the
persisted file `"a|b|c\n"` fails to load at all (the line splits into
three pieces and the two-name unpacking raises `ValueError`), so the
round trip does not return the original entries. -/
theorem C1_counterexample :
    ('|' ∉ strL "a") ∧
      load_transcription_map (create_transcript_csv [(strL "a", strL "b|c")]) = none := by
  exact ⟨by decide, by decide⟩

/-- Claim C1, amended: the round trip `load (persist ledger)` returns
exactly the original ordered entries provided each field is
round-trip-safe — no `'|'` in either field (the parser splits on every
`'|'`), no line breaks, no surrounding whitespace (the parser strips
it) — the recording ids are distinct (the loaded mapping is keyed by
id), and each id is fixed by path normalisation (the loader keys the
mapping by `str(Path(id))`). -/
theorem C1_amended_round_trip (entries : List (List Char × List Char))
    (hf : ∀ p ∈ entries, goodLedgerField p.1 ∧ goodLedgerField p.2 ∧ pathNorm p.1 = p.1)
    (hnd : (entries.map Prod.fst).Nodup) :
    load_transcription_map (create_transcript_csv entries) = some entries := by
  unfold load_transcription_map
  rw [pyReadlines_csv entries (fun p hp =>
    ⟨⟨((hf p hp).1).2.1, ((hf p hp).1).2.2.1⟩, ⟨((hf p hp).2.1).2.1, ((hf p hp).2.1).2.2.1⟩⟩)]
  have := load_fold_appends entries [] hf (by simp) hnd
  simpa using this

/-- Witness for the amended C1 at a concrete ledger. -/
theorem C1_witness :
    load_transcription_map (create_transcript_csv
        [(strL "wavs/u1.wav", strL "hello"), (strL "u2", strL "world two")]) =
      some [(strL "wavs/u1.wav", strL "hello"), (strL "u2", strL "world two")] :=
  C1_amended_round_trip
    [(strL "wavs/u1.wav", strL "hello"), (strL "u2", strL "world two")]
    (by decide) (by decide)

/-- Parsing a line fails exactly when splitting on `'|'` does not give
two pieces. -/
theorem parseLedgerLine_none_iff (line : List Char) :
    parseLedgerLine line = none ↔ (splitOnChar '|' line).length ≠ 2 := by
  unfold parseLedgerLine
  rcases h : splitOnChar '|' line with _ | ⟨a, _ | ⟨b, _ | ⟨c, ps⟩⟩⟩ <;> simp

/-- The loading fold fails exactly when some line fails to parse. -/
theorem load_fold_none_iff :
    ∀ (lines : List (List Char)) (acc : List (List Char × List Char)),
      List.foldlM
        (fun m line => (parseLedgerLine line).map (fun p => dictInsert m (pathNorm p.1) p.2))
        acc lines = none ↔ ∃ l ∈ lines, parseLedgerLine l = none := by
  intro lines
  induction lines with
  | nil => intro acc; simp
  | cons l ls ih =>
    intro acc
    simp only [List.foldlM_cons]
    rcases hp : parseLedgerLine l with _ | p
    · simp [hp]
    · simp only [hp, Option.map_some', Option.bind_eq_bind, Option.some_bind]
      rw [ih]
      constructor
      · intro ⟨l', hl', hn⟩
        exact ⟨l', List.mem_cons_of_mem _ hl', hn⟩
      · intro ⟨l', hl', hn⟩
        rcases List.mem_cons.mp hl' with rfl | hmem
        · rw [hp] at hn; exact Option.noConfusion hn
        · exact ⟨l', hmem, hn⟩

/-- Claim C2 as stated is false: the single-line file `"a|b|c"` contains
a `'|'` separator in its only line, yet loading fails — the source
splits on every `'|'`, not only the first, and the two-name unpacking
raises `ValueError` on the three pieces. -/
theorem C2_counterexample :
    ('|' ∈ strL "a|b|c") ∧
      pyReadlines (strL "a|b|c") = [strL "a|b|c"] ∧
      load_transcription_map (strL "a|b|c") = none := by
  exact ⟨by decide, by decide, by decide⟩

/-- Claim C2, amended: the load fails (with a `ValueError` from tuple
unpacking, which does not name the offending line) if and only if some
line's split on `'|'` yields a number of pieces different from two —
that is, the line contains either no `'|'` or more than one.  A line
with exactly one `'|'` is split there, both parts are stripped, and it
never causes a failure. -/
theorem C2_amended_load_failure (content : List Char) :
    load_transcription_map content = none ↔
      ∃ line ∈ pyReadlines content, (splitOnChar '|' line).length ≠ 2 := by
  unfold load_transcription_map
  rw [load_fold_none_iff]
  constructor
  · intro ⟨l, hl, hn⟩
    exact ⟨l, hl, (parseLedgerLine_none_iff l).mp hn⟩
  · intro ⟨l, hl, hn⟩
    exact ⟨l, hl, (parseLedgerLine_none_iff l).mpr hn⟩

/-! ## The recording-id computation -/

/-- The replacement scan walks over characters that cannot start a
match. -/
theorem replGo_skip (o : Char) (tl new b : List Char) :
    ∀ (a : List Char) (fuel : Nat), o ∉ a →
      replGo (o :: tl) new (a.length + fuel) (a ++ b) =
        a ++ replGo (o :: tl) new fuel b := by
  intro a
  induction a with
  | nil => intro fuel _; simp
  | cons c a' ih =>
    intro fuel ha
    simp only [List.mem_cons, not_or] at ha
    have hstep : a'.length + 1 + fuel = (a'.length + fuel) + 1 := by omega
    simp only [List.length_cons, List.cons_append, hstep, replGo]
    rw [if_neg]
    · rw [ih fuel ha.2]
    · intro habs
      obtain ⟨s, hs⟩ := List.isPrefixOf_iff_prefix.mp habs
      have : o = c := by
        have := congrArg (fun l => l.head?) hs
        simpa using this
      exact ha.1 this

/-- A string containing no character of `old` is returned unchanged by
the replacement scan, whatever the fuel. -/
theorem replGo_no_match (old new : List Char) (o : Char) (ho : o ∈ old) :
    ∀ (fuel : Nat) (s : List Char), o ∉ s → replGo old new fuel s = s := by
  intro fuel
  induction fuel with
  | zero => intro s _; rfl
  | succ f ih =>
    intro s hs
    rcases s with _ | ⟨c, rest⟩
    · rfl
    · simp only [List.mem_cons, not_or] at hs
      simp only [replGo]
      rw [if_neg]
      · rw [ih rest hs.2]
      · intro habs
        have hsub : old ⊆ c :: rest :=
          (List.isPrefixOf_iff_prefix.mp habs).subset
        rcases List.mem_cons.mp (hsub ho) with h1 | h2
        · exact hs.1 h1
        · exact hs.2 h2

/-- Every character of the decimal rendering is a digit. -/
theorem natToCharsGo_digits :
    ∀ (fuel n : Nat), ∀ c ∈ natToCharsGo fuel n, c.isDigit = true := by
  intro fuel
  induction fuel with
  | zero => intro n c hc; simp [natToCharsGo] at hc
  | succ f ih =>
    intro n c hc
    simp only [natToCharsGo] at hc
    by_cases h : n < 10
    · rw [if_pos h] at hc
      rcases List.mem_singleton.mp hc with rfl
      unfold digitChar10
      interval_cases n <;> decide
    · rw [if_neg h] at hc
      rcases List.mem_append.mp hc with h1 | h2
      · exact ih (n / 10) c h1
      · rcases List.mem_singleton.mp h2 with rfl
        unfold digitChar10
        have : n % 10 < 10 := Nat.mod_lt _ (by omega)
        interval_cases hm : (n % 10) <;> simp_all

theorem natToChars_digits (n : Nat) : ∀ c ∈ natToChars n, c.isDigit = true :=
  natToCharsGo_digits (n + 1) n

/-- One scan step on a full prefix match. -/
theorem replGo_head_match (old new s : List Char) (fuel : Nat)
    (hpre : old.isPrefixOf s = true) (hs : s ≠ []) :
    replGo old new (fuel + 1) s = new ++ replGo old new fuel (s.drop old.length) := by
  rcases s with _ | ⟨c, rest⟩
  · exact absurd rfl hs
  · simp only [replGo, if_pos hpre]

theorem isPrefixOf_append_self (l x : List Char) : l.isPrefixOf (l ++ x) = true :=
  List.isPrefixOf_iff_prefix.mpr ⟨x, rfl⟩

/-- Removing the trailing `".wav"` from a dot-free stem. -/
theorem pyReplace_strip_tail (A : List Char) (hA : '.' ∉ A) :
    pyReplace (strL ".wav") [] (A ++ strL ".wav") = A := by
  unfold pyReplace
  rw [if_neg (by decide : ¬(strL ".wav" = []))]
  have hlen : (A ++ strL ".wav").length = A.length + 4 := by
    simp [strL]
  rw [hlen]
  have hshape : strL ".wav" = '.' :: strL "wav" := rfl
  rw [show (A ++ strL ".wav") = A ++ ('.' :: strL "wav") from rfl, hshape,
    replGo_skip '.' (strL "wav") [] ('.' :: strL "wav") A 4 hA]
  rw [show replGo ('.' :: strL "wav") [] 4 ('.' :: strL "wav") = [] from by decide]
  simp

/-- Removing the leading `"wavs/"` from a slash-free remainder. -/
theorem pyReplace_strip_head (R : List Char) (hR : '/' ∉ R) :
    pyReplace (strL "wavs/") [] (strL "wavs/" ++ R) = R := by
  unfold pyReplace
  rw [if_neg (by decide : ¬(strL "wavs/" = []))]
  have hlen : (strL "wavs/" ++ R).length = R.length + 5 := by
    simp [strL]
  rw [hlen, show R.length + 5 = (R.length + 4) + 1 from rfl,
    replGo_head_match (strL "wavs/") [] (strL "wavs/" ++ R) (R.length + 4)
      (isPrefixOf_append_self _ _) (by simp [strL]),
    show (strL "wavs/").length = 5 from rfl]
  rw [show (strL "wavs/" ++ R).drop 5 = R from by
    rw [show (5 : Nat) = (strL "wavs/").length from rfl, List.drop_left]]
  rw [replGo_no_match (strL "wavs/") [] '/' (by decide) (R.length + 4) R hR]
  simp

/-- Claim C5 as stated is false: for the dataset name `"x.wav"` the
first recording's file is `wavs/x.wav1.wav`; stripping only the leading
`wavs/` directory and the trailing `.wav` extension would give
`"x.wav1"`, but `str.replace` removes *every* occurrence of `".wav"`,
so the code produces `"x1"`. -/
theorem C5_counterexample :
    recordingIdOf (strL "x.wav") 0 = strL "x1" ∧ strL "x1" ≠ strL "x.wav1" := by
  exact ⟨by decide, by decide⟩

/-- Claim C5, amended: the recording id is the relative path with every
occurrence of `".wav"` removed and then every occurrence of `"wavs/"`
removed (replace-all semantics).  For a dataset name containing neither
`'.'` nor `'/'` — so that the only `".wav"` occurrence is the trailing
extension and the only `"wavs/"` occurrence is the leading directory —
this equals the claimed stripping: the id is exactly
`dataset_name ++ str(row_index + 1)`. -/
theorem C5_amended_recording_id (name : List Char) (idx : Nat)
    (h1 : '.' ∉ name) (h2 : '/' ∉ name) :
    recordingIdOf name idx = name ++ natToChars (idx + 1) := by
  show pyReplace (strL "wavs/") []
      (pyReplace (strL ".wav") []
        (strL "wavs/" ++ name ++ natToChars (idx + 1) ++ strL ".wav")) =
    name ++ natToChars (idx + 1)
  have hdotD : '.' ∉ natToChars (idx + 1) := by
    intro hmem
    have := natToChars_digits (idx + 1) '.' hmem
    exact absurd this (by decide)
  have hslashD : '/' ∉ natToChars (idx + 1) := by
    intro hmem
    have := natToChars_digits (idx + 1) '/' hmem
    exact absurd this (by decide)
  have hA : '.' ∉ strL "wavs/" ++ (name ++ natToChars (idx + 1)) := by
    intro hmem
    rcases List.mem_append.mp hmem with hw | hnd
    · exact absurd hw (by decide)
    · rcases List.mem_append.mp hnd with hn | hd
      · exact h1 hn
      · exact hdotD hd
  have hR : '/' ∉ name ++ natToChars (idx + 1) := by
    intro hmem
    rcases List.mem_append.mp hmem with hn | hd
    · exact h2 hn
    · exact hslashD hd
  have hassoc : strL "wavs/" ++ name ++ natToChars (idx + 1) ++ strL ".wav" =
      (strL "wavs/" ++ (name ++ natToChars (idx + 1))) ++ strL ".wav" := by
    simp [List.append_assoc]
  rw [hassoc, pyReplace_strip_tail _ hA, pyReplace_strip_head _ hR]

/-- Witness for the amended C5 at a concrete dataset name. -/
theorem C5_witness :
    recordingIdOf (strL "abc") 0 = strL "abc" ++ natToChars 1 :=
  C5_amended_recording_id (strL "abc") 0 (by decide) (by decide)

/-! ## The recording session -/

/-- Claim C6 as stated is false: stopping immediately after starting
(zero intervening timer ticks) still performs the final *forced* flush
read inside the stop branch, so the WAV file contains one full device
buffer — 1024 frames, not zero. -/
theorem C6_counterexample :
    (stopRecording ⟨fun _ => List.replicate 1024 0⟩ (strL "d") (strL "s") 0
        startRecording).1.samples.length = 1024 ∧ (1024 : Nat) ≠ 0 := by
  constructor
  · show (([] ++ [List.replicate 1024 (0 : Int)]).flatten).length = 1024
    rw [List.nil_append, List.flatten_cons, List.flatten_nil, List.append_nil,
      List.length_replicate]
  · decide

/-- Claim C6, amended: `start()` followed immediately by `stop()` (zero
intervening `poll_tick` calls) raises no error and writes a valid WAV
file — mono, 16-bit, 22050 Hz — and returns a new ledger-eligible
utterance; but because `stop` performs one final forced flush read, the
file contains exactly one device buffer (1024 frames) of audio rather
than zero frames. -/
theorem C6_amended_zero_poll_stop (dev : RecDevice) (name tr : List Char)
    (idx : Nat) (hchunk : ∀ n, (dev.chunkAt n).length = 1024) :
    wavNFrames (stopRecording dev name tr idx startRecording).1 = 1024 ∧
      (stopRecording dev name tr idx startRecording).1.nchannels = 1 ∧
      (stopRecording dev name tr idx startRecording).1.sampwidth = 2 ∧
      (stopRecording dev name tr idx startRecording).1.framerate = 22050 ∧
      (stopRecording dev name tr idx startRecording).2.1 =
        (recordingIdOf name idx, tr) ∧
      (stopRecording dev name tr idx startRecording).2.2.is_recording = false := by
  refine ⟨?_, rfl, rfl, rfl, rfl, rfl⟩
  simp [wavNFrames, stopRecording, on_audio_record_timer_tick, tickRead,
    startRecording, hchunk 0]

/-- Witness for the amended C6 at a concrete device. -/
theorem C6_witness :
    wavNFrames (stopRecording ⟨fun _ => List.replicate 1024 7⟩ (strL "ds")
        (strL "a prompt") 3 startRecording).1 = 1024 ∧
      (stopRecording ⟨fun _ => List.replicate 1024 7⟩ (strL "ds")
          (strL "a prompt") 3 startRecording).1.nchannels = 1 ∧
      (stopRecording ⟨fun _ => List.replicate 1024 7⟩ (strL "ds")
          (strL "a prompt") 3 startRecording).1.sampwidth = 2 ∧
      (stopRecording ⟨fun _ => List.replicate 1024 7⟩ (strL "ds")
          (strL "a prompt") 3 startRecording).1.framerate = 22050 ∧
      (stopRecording ⟨fun _ => List.replicate 1024 7⟩ (strL "ds")
          (strL "a prompt") 3 startRecording).2.1 =
        (recordingIdOf (strL "ds") 3, strL "a prompt") ∧
      (stopRecording ⟨fun _ => List.replicate 1024 7⟩ (strL "ds")
          (strL "a prompt") 3 startRecording).2.2.is_recording = false :=
  C6_amended_zero_poll_stop ⟨fun _ => List.replicate 1024 7⟩ (strL "ds")
    (strL "a prompt") 3 (fun _ => List.length_replicate 1024 7)

/-! ## Structure of the run decomposition -/

theorem runStep_ne_nil (c : Char) (acc : List (List Char)) :
    runStep c acc ≠ [] := by
  unfold runStep
  by_cases h : c.isDigit
  · rw [if_pos h]
    rcases acc with _ | ⟨t, rest⟩ <;> try simp
    rcases t with _ | ⟨x, t'⟩ <;> rcases rest with _ | ⟨d, rest'⟩ <;> simp
  · rw [if_neg h]
    rcases acc with _ | ⟨t, rest⟩ <;> simp

theorem runsSplit_ne_nil (s : List Char) : runsSplit s ≠ [] := by
  induction s with
  | nil => simp [runsSplit]
  | cons c rest ih => exact runStep_ne_nil c (runsSplit rest)

/-- Concatenating the pieces of the run decomposition restores the
string. -/
theorem runsSplit_flatten (s : List Char) : (runsSplit s).flatten = s := by
  induction s with
  | nil => rfl
  | cons c rest ih =>
    show (runStep c (runsSplit rest)).flatten = c :: rest
    unfold runStep
    by_cases h : c.isDigit
    · rw [if_pos h]
      rcases hacc : runsSplit rest with _ | ⟨t, acc'⟩
      · exact absurd hacc (runsSplit_ne_nil rest)
      · rcases t with _ | ⟨x, t'⟩
        · rcases acc' with _ | ⟨d, acc''⟩
          · simp_all [runsSplit]
          · rw [hacc] at ih
            simpa using ih
        · rw [hacc] at ih
          simpa using ih
    · rw [if_neg h]
      rcases hacc : runsSplit rest with _ | ⟨t, acc'⟩
      · exact absurd hacc (runsSplit_ne_nil rest)
      · rw [hacc] at ih
        simpa using ih

/-- The run decomposition has odd length: it starts and ends with a
(possibly empty) non-digit piece. -/
theorem runsSplit_length_odd (s : List Char) : (runsSplit s).length % 2 = 1 := by
  induction s with
  | nil => rfl
  | cons c rest ih =>
    show (runStep c (runsSplit rest)).length % 2 = 1
    unfold runStep
    by_cases h : c.isDigit
    · rw [if_pos h]
      rcases hacc : runsSplit rest with _ | ⟨t, acc'⟩
      · exact absurd hacc (runsSplit_ne_nil rest)
      · rcases t with _ | ⟨x, t'⟩
        · rcases acc' with _ | ⟨d, acc''⟩
          · simp_all [runsSplit]
          · rw [hacc] at ih
            simpa using ih
        · rw [hacc] at ih
          simp only [List.length_cons] at ih ⊢
          omega
    · rw [if_neg h]
      rcases hacc : runsSplit rest with _ | ⟨t, acc'⟩
      · exact absurd hacc (runsSplit_ne_nil rest)
      · rw [hacc] at ih
        simpa using ih

/-- One split step preserves the alternation shape. -/
theorem runStep_alt (c : Char) (acc : List (List Char))
    (h : AltRuns false acc) : AltRuns false (runStep c acc) := by
  unfold runStep
  by_cases hd : c.isDigit
  · rw [if_pos hd]
    rcases acc with _ | ⟨t, rest⟩
    · exact absurd h (by simp [AltRuns])
    · rcases t with _ | ⟨x, t'⟩
      · rcases rest with _ | ⟨d, rest'⟩
        · refine ⟨by simp, Or.inr ⟨by simp, by simpa using hd, h⟩⟩
        · obtain ⟨-, hrest⟩ := h
          rcases hrest with h0 | halt
          · exact absurd h0 (by simp)
          · obtain ⟨hd_ne, hd_dig, hrest'⟩ := halt
            refine ⟨by simp, Or.inr ⟨by simp, ?_, hrest'⟩⟩
            intro ch hch
            rcases List.mem_cons.mp hch with rfl | hmem
            · exact hd
            · exact hd_dig ch hmem
      · refine ⟨by simp, Or.inr ⟨by simp, ?_, h⟩⟩
        intro ch hch
        rcases List.mem_singleton.mp hch with rfl
        exact hd
  · rw [if_neg hd]
    rcases acc with _ | ⟨t, rest⟩
    · exact absurd h (by simp [AltRuns])
    · obtain ⟨ht, hrest⟩ := h
      refine ⟨?_, hrest⟩
      intro ch hch
      rcases List.mem_cons.mp hch with rfl | hmem
      · simpa using hd
      · exact ht ch hmem

/-- The run decomposition alternates: non-digit pieces at even
positions, non-empty all-digit runs at odd positions, and a digit run
is never last. -/
theorem runsSplit_alt (s : List Char) : AltRuns false (runsSplit s) := by
  induction s with
  | nil => exact ⟨by simp, Or.inl rfl⟩
  | cons c rest ih => exact runStep_alt c (runsSplit rest) ih

/-- Appending after a prefix that ends in a non-digit character only
changes the run decomposition by a fixed block `D` of complete runs and
a fixed non-empty non-digit run `L` merged onto the suffix's first
piece. -/
theorem runsSplit_prefix_decomp (c : Char) (hc : c.isDigit = false) :
    ∀ q : List Char, ∃ D : List (List Char), ∃ L : List Char, L ≠ [] ∧
      ∀ a : List Char, runsSplit (q ++ c :: a) =
        D ++ (L ++ (runsSplit a).headD []) :: (runsSplit a).tail := by
  intro q
  induction q with
  | nil =>
    refine ⟨[], [c], by simp, ?_⟩
    intro a
    show runStep c (runsSplit a) = _
    rcases ha : runsSplit a with _ | ⟨h0, t0⟩
    · exact absurd ha (runsSplit_ne_nil a)
    · simp [runStep, hc]
  | cons x q' ih =>
    obtain ⟨D', L', hL', hEq⟩ := ih
    by_cases hx : x.isDigit
    · rcases D' with _ | ⟨t, D''⟩
      · refine ⟨[[], [x]], L', hL', ?_⟩
        intro a
        show runStep x (runsSplit (q' ++ c :: a)) = _
        rw [hEq a]
        rcases hv : L' ++ (runsSplit a).headD [] with _ | ⟨v0, vr⟩
        · exact absurd (List.append_eq_nil.mp hv).1 hL'
        · simp [runStep, hx, hv]
      · rcases t with _ | ⟨y, t'⟩
        · rcases D'' with _ | ⟨e, D₃⟩
          · refine ⟨[[]], x :: L', by simp, ?_⟩
            intro a
            show runStep x (runsSplit (q' ++ c :: a)) = _
            rw [hEq a]
            simp [runStep, hx]
          · refine ⟨[] :: (x :: e) :: D₃, L', hL', ?_⟩
            intro a
            show runStep x (runsSplit (q' ++ c :: a)) = _
            rw [hEq a]
            simp [runStep, hx]
        · refine ⟨[] :: [x] :: (y :: t') :: D'', L', hL', ?_⟩
          intro a
          show runStep x (runsSplit (q' ++ c :: a)) = _
          rw [hEq a]
          simp [runStep, hx]
    · rcases D' with _ | ⟨d, D''⟩
      · refine ⟨[], x :: L', by simp, ?_⟩
        intro a
        show runStep x (runsSplit (q' ++ c :: a)) = _
        rw [hEq a]
        simp [runStep, hx]
      · refine ⟨(x :: d) :: D'', L', hL', ?_⟩
        intro a
        show runStep x (runsSplit (q' ++ c :: a)) = _
        rw [hEq a]
        simp [runStep, hx]

theorem pyStrLt_irrefl (a : List Char) : pyStrLt a a = false := by
  induction a with
  | nil => rfl
  | cons c rest ih => simp [pyStrLt, ih]

theorem pyStrLt_append_left (x : List Char) :
    ∀ u v, pyStrLt (x ++ u) (x ++ v) = pyStrLt u v := by
  induction x with
  | nil => intro u v; rfl
  | cons c x' ih => intro u v; simp [pyStrLt, ih]

theorem pyElemLt_irrefl (k : List Char ⊕ Nat) : pyElemLt k k = false := by
  rcases k with a | n
  · simp [pyElemLt, pyStrLt_irrefl]
  · simp [pyElemLt]

theorem pyKeyLt_append_left (K : List (List Char ⊕ Nat)) :
    ∀ u v, pyKeyLt (K ++ u) (K ++ v) = pyKeyLt u v := by
  induction K with
  | nil => intro u v; rfl
  | cons k K' ih => intro u v; simp [pyKeyLt, pyElemLt_irrefl, ih]

/-- `toKeyListFrom` distributes over an append with an even-length left
part (the typing flag returns to its starting value). -/
theorem toKeyListFrom_append_even (D : List (List Char)) :
    ∀ (flag : Bool) (rest : List (List Char)), D.length % 2 = 0 →
      toKeyListFrom flag (D ++ rest) =
        toKeyListFrom flag D ++ toKeyListFrom flag rest := by
  have gen : ∀ (D : List (List Char)) (flag : Bool) (rest : List (List Char)),
      toKeyListFrom flag (D ++ rest) =
        toKeyListFrom flag D ++
          toKeyListFrom (xor flag (decide (D.length % 2 = 1))) rest := by
    intro D
    induction D with
    | nil =>
      intro flag rest
      have h0 : ∀ fl : Bool, toKeyListFrom fl [] = [] := fun fl => by
        cases fl <;> rfl
      simp [h0]
    | cons t D' ih =>
      intro flag rest
      have hpar : (xor (!flag) (decide (D'.length % 2 = 1))) =
          (xor flag (decide ((t :: D').length % 2 = 1))) := by
        simp only [List.length_cons]
        rcases Nat.mod_two_eq_zero_or_one D'.length with h | h <;>
          rcases flag <;> simp [h, Nat.add_mod]
      cases flag
      · show Sum.inl t :: toKeyListFrom true (D' ++ rest) =
          Sum.inl t :: toKeyListFrom true D' ++
            toKeyListFrom (xor false (decide ((t :: D').length % 2 = 1))) rest
        rw [ih true rest, ← hpar]
        simp
      · show Sum.inr (digitsToNat t) :: toKeyListFrom false (D' ++ rest) =
          Sum.inr (digitsToNat t) :: toKeyListFrom false D' ++
            toKeyListFrom (xor true (decide ((t :: D').length % 2 = 1))) rest
        rw [ih false rest, ← hpar]
        simp
  intro flag rest h
  rw [gen D flag rest, show (decide (D.length % 2 = 1)) = false from by simp [h]]
  simp

/-- Comparing two key lists is comparing the run sequences
lexicographically, digit runs as integers and the rest as strings. -/
theorem pyKeyLt_runs (r₁ : List (List Char)) :
    ∀ (flag : Bool) (r₂ : List (List Char)),
      pyKeyLt (toKeyListFrom flag r₁) (toKeyListFrom flag r₂) =
        specRunsLt flag r₁ r₂ := by
  induction r₁ with
  | nil =>
    intro flag r₂
    rcases r₂ with _ | ⟨b, bs⟩ <;> cases flag <;>
      simp [toKeyListFrom, pyKeyLt, specRunsLt]
  | cons a as ih =>
    intro flag r₂
    rcases r₂ with _ | ⟨b, bs⟩
    · cases flag <;> simp [toKeyListFrom, pyKeyLt, specRunsLt]
    · cases flag
      · simp [toKeyListFrom, pyKeyLt, pyElemLt, specRunsLt, ih true bs,
          Sum.inl.injEq]
      · simp [toKeyListFrom, pyKeyLt, pyElemLt, specRunsLt, ih false bs,
          Sum.inr.injEq]

/-- Natural-key comparison ignores a common prefix that ends in a
non-digit character: comparing `p ++ a` with `p ++ b` (for
`p = q ++ [c]`, `c` not a digit) is comparing `a` with `b`. -/
theorem pyKeyLt_natural_keys_append (q : List Char) (c : Char)
    (hc : c.isDigit = false) (a b : List Char) :
    pyKeyLt (natural_keys (q ++ c :: a)) (natural_keys (q ++ c :: b)) =
      pyKeyLt (natural_keys a) (natural_keys b) := by
  obtain ⟨D, L, hL, hEq⟩ := runsSplit_prefix_decomp c hc q
  have hodd := runsSplit_length_odd (q ++ [c])
  have hDlen : D.length % 2 = 0 := by
    have h0 := hEq []
    rw [show runsSplit ([] : List Char) = [[]] from rfl] at h0
    simp only [List.headD_cons, List.tail_cons, List.append_nil] at h0
    rw [h0] at hodd
    simp only [List.length_append, List.length_cons, List.length_nil] at hodd
    omega
  rcases hA : runsSplit a with _ | ⟨a0, ta⟩
  · exact absurd hA (runsSplit_ne_nil a)
  rcases hB : runsSplit b with _ | ⟨b0, tb⟩
  · exact absurd hB (runsSplit_ne_nil b)
  unfold natural_keys
  rw [hEq a, hEq b, hA, hB]
  simp only [List.headD_cons, List.tail_cons]
  rw [toKeyListFrom_append_even D false _ hDlen,
    toKeyListFrom_append_even D false _ hDlen, pyKeyLt_append_left]
  show pyKeyLt (Sum.inl (L ++ a0) :: toKeyListFrom true ta)
      (Sum.inl (L ++ b0) :: toKeyListFrom true tb) =
    pyKeyLt (Sum.inl a0 :: toKeyListFrom true ta)
      (Sum.inl b0 :: toKeyListFrom true tb)
  have hdec : decide (Sum.inl (L ++ a0) = (Sum.inl (L ++ b0) : List Char ⊕ Nat)) =
      decide (Sum.inl a0 = (Sum.inl b0 : List Char ⊕ Nat)) := by
    by_cases h : a0 = b0
    · subst h; simp
    · have h1 : ¬(L ++ a0 = L ++ b0) := fun hh => h (List.append_cancel_left hh)
      simp [h, h1]
  simp only [pyKeyLt, pyElemLt, pyStrLt_append_left, hdec]

/-- `orderedInsert` commutes with a map that respects the order. -/
theorem orderedInsert_map_congr (r : List Char → List Char → Prop)
    (r' : List Char → List Char → Prop) [DecidableRel r] [DecidableRel r']
    (g : List Char → List Char) (hg : ∀ a b, r' (g a) (g b) ↔ r a b) (a : List Char) :
    ∀ l : List (List Char),
      List.orderedInsert r' (g a) (l.map g) = (List.orderedInsert r a l).map g := by
  intro l
  induction l with
  | nil => rfl
  | cons b l' ih =>
    simp only [List.map_cons, List.orderedInsert]
    by_cases h : r a b
    · rw [if_pos ((hg a b).mpr h), if_pos h]
      simp
    · rw [if_neg (fun hh => h ((hg a b).mp hh)), if_neg h]
      simp [ih]

/-- A stable sort commutes with a map that respects the order. -/
theorem insertionSort_map_congr (r : List Char → List Char → Prop)
    (r' : List Char → List Char → Prop) [DecidableRel r] [DecidableRel r']
    (g : List Char → List Char) (hg : ∀ a b, r' (g a) (g b) ↔ r a b) :
    ∀ l : List (List Char),
      List.insertionSort r' (l.map g) = (List.insertionSort r l).map g := by
  intro l
  induction l with
  | nil => rfl
  | cons a l' ih =>
    simp only [List.map_cons, List.insertionSort, ih,
      orderedInsert_map_congr r r' g hg a]

/-- Claim C4: the bootstrap reconciliation returns exactly the WAV files
whose recording id (path relative to the dataset root) is present in the
parsed mapping, paired with the mapped transcription, ordered by the
natural-order sort of the filenames; files with unmapped ids are
silently skipped.  The code sorts the full glob paths, but the common
path prefix ends in `'/'` (a non-digit), so this is the natural-order
sort of the bare filenames. -/
theorem C4_bootstrap_reconciliation (root : List Char)
    (wavNames : List (List Char)) (tmap : List (List Char × List Char)) :
    bootstrap_items root wavNames tmap = spec_bootstrap_items wavNames tmap := by
  unfold bootstrap_items spec_bootstrap_items pySortedByNatKeys
  have hg : ∀ a b : List Char,
      natKeyLt (root ++ strL "/wavs/" ++ a) (root ++ strL "/wavs/" ++ b) ↔
        natKeyLt a b := by
    intro a b
    unfold natKeyLt
    rw [show root ++ strL "/wavs/" ++ a = (root ++ strL "/wavs") ++ '/' :: a from by
          rw [show strL "/wavs/" = strL "/wavs" ++ ['/'] from rfl]
          simp,
      show root ++ strL "/wavs/" ++ b = (root ++ strL "/wavs") ++ '/' :: b from by
          rw [show strL "/wavs/" = strL "/wavs" ++ ['/'] from rfl]
          simp,
      pyKeyLt_natural_keys_append (root ++ strL "/wavs") '/' (by decide) a b]
  rw [insertionSort_map_congr natKeyLt natKeyLt
    (fun f => root ++ strL "/wavs/" ++ f) hg wavNames]
  rw [List.filterMap_map]
  congr 1
  funext f
  have hrid : (root ++ strL "/wavs/" ++ f).drop (root.length + 1) =
      strL "wavs/" ++ f := by
    rw [show root ++ strL "/wavs/" ++ f = (root ++ ['/']) ++ (strL "wavs/" ++ f) from by
          rw [show strL "/wavs/" = '/' :: strL "wavs/" from rfl]
          simp,
      show root.length + 1 = (root ++ ['/']).length from by simp]
    exact List.drop_left _ _
  simp only [Function.comp_apply]
  rw [hrid]

/-- Claim C9: `natural_keys` splits a filename into alternating runs of
digits and non-digits (the pieces concatenate back to the input, pieces
alternate between digit-free strings and non-empty digit runs); the sort
key compares lexicographically across the run sequence, digit runs as
integers and non-digit runs as strings; in particular
`["a2", "a10", "a1"]` sorts to `["a1", "a2", "a10"]` and `"utt2.wav"`
sorts before `"utt10.wav"`. -/
theorem C9_natural_order_comparator :
    (∀ s : List Char, (runsSplit s).flatten = s ∧ AltRuns false (runsSplit s)) ∧
      (∀ a b : List Char,
        pyKeyLt (natural_keys a) (natural_keys b) =
          specRunsLt false (runsSplit a) (runsSplit b)) ∧
      pySortedByNatKeys [strL "a2", strL "a10", strL "a1"] =
        [strL "a1", strL "a2", strL "a10"] ∧
      natKeyLt (strL "utt2.wav") (strL "utt10.wav") := by
  refine ⟨fun s => ⟨runsSplit_flatten s, runsSplit_alt s⟩,
    fun a b => pyKeyLt_runs (runsSplit a) false (runsSplit b),
    by decide, by decide⟩
